import Mathlib

/-!
Verification of the ARTOS `CaffeFeatureExtractor` (src/src/CaffeFeatureExtractor.h).

The repository provides only the class header: declarations, documentation
comments and the data members.  The method bodies live in a `.cpp` file that is
not part of the sources, so every operation below is modelled from the
specification (and from the header's documentation comments), faithful to
their words, and the claims are settled against these models.

Numeric feature values (C++ `float`) are modelled as rationals `ℚ`;
machine integers are modelled as `Nat` / `Int` (no overflow is relevant at the
sizes involved).
-/

namespace ARTOS

/-- A pair of extents in x and y direction (pixels or cells),
mirroring the `Size` struct used throughout `FeatureExtractor`. -/
structure Size where
  width : Nat
  height : Nat
deriving DecidableEq, Repr

/-- `enum class LayerType { OTHER, CONV, POOL }` from the header (line 204). -/
inductive LayerType where
  | OTHER
  | CONV
  | POOL
deriving DecidableEq, Repr

/-- `struct LayerParams` from the header (lines 206-212): the geometric
parameters of one network layer as retrieved by `getLayerParams`. -/
structure LayerParams where
  layerType : LayerType
  kernelSize : Size
  padding : Size
  stride : Size
deriving DecidableEq, Repr

/-- The geometry accumulated while walking the layer chain: the cell size in
pixels and the border (receptive-field loss) in pixels, per dimension. -/
structure Geometry where
  cellSize : Size
  borderSize : Size
deriving DecidableEq, Repr

/-- Modelled from the spec (4.3 Composition rule), one dimension of the border
update: `border_out = border_in × stride + floor((kernel − stride) / 2) −
padding`, clamped at zero.  `Int.toNat` performs the clamp. -/
def borderAccum (border stride kernel padding : Nat) : Nat :=
  ((border : Int) * stride + ((kernel : Int) - stride) / 2 - padding).toNat

/-- Modelled from the spec (4.3): the contribution of a single layer to the
accumulated geometry.  A convolutional or pooling layer multiplies the cell
size by its stride and updates the border with `borderAccum`; any other layer
passes the geometry through unchanged. -/
def geomStep (g : Geometry) (p : LayerParams) : Geometry :=
  match p.layerType with
  | LayerType.CONV =>
      { cellSize := ⟨g.cellSize.width * p.stride.width,
                     g.cellSize.height * p.stride.height⟩
        borderSize := ⟨borderAccum g.borderSize.width p.stride.width
                         p.kernelSize.width p.padding.width,
                       borderAccum g.borderSize.height p.stride.height
                         p.kernelSize.height p.padding.height⟩ }
  | LayerType.POOL =>
      { cellSize := ⟨g.cellSize.width * p.stride.width,
                     g.cellSize.height * p.stride.height⟩
        borderSize := ⟨borderAccum g.borderSize.width p.stride.width
                         p.kernelSize.width p.padding.width,
                       borderAccum g.borderSize.height p.stride.height
                         p.kernelSize.height p.padding.height⟩ }
  | LayerType.OTHER => g

/-- The geometry of the input image itself: one pixel per cell, no border. -/
def inputGeometry : Geometry := ⟨⟨1, 1⟩, ⟨0, 0⟩⟩

/-- Modelled from the spec (4.3, `loadLayerInfo`): the geometry resolved for a
target layer is obtained by folding the per-layer contribution over the chain
of layers from the input layer up to and including the target layer. -/
def resolveGeometry (chain : List LayerParams) : Geometry :=
  chain.foldl geomStep inputGeometry

theorem resolveGeometry_append_one (chain : List LayerParams) (l : LayerParams) :
    resolveGeometry (chain ++ [l]) = geomStep (resolveGeometry chain) l := by
  unfold resolveGeometry
  rw [List.foldl_append]
  rfl

theorem geomStep_other (g : Geometry) (p : LayerParams)
    (h : p.layerType = LayerType.OTHER) : geomStep g p = g := by
  unfold geomStep
  rw [h]

/-- C1: For every layer chain walked from the input layer up to and including a
target layer, the resolved geometry satisfies the composition rule: at each
convolutional or pooling layer, `cell_size_out = cell_size_in × stride` and
`border_out = border_in × stride + floor((kernel − stride) / 2) − padding`
clamped at zero; every layer that is neither convolutional nor pooling leaves
cell size and border size unchanged. -/
theorem geometry_composition_rule (pre : List LayerParams) (l : LayerParams) :
    (l.layerType = LayerType.CONV ∨ l.layerType = LayerType.POOL →
      resolveGeometry (pre ++ [l]) =
        { cellSize :=
            ⟨(resolveGeometry pre).cellSize.width * l.stride.width,
             (resolveGeometry pre).cellSize.height * l.stride.height⟩
          borderSize :=
            ⟨(((resolveGeometry pre).borderSize.width : Int) * l.stride.width
                + ((l.kernelSize.width : Int) - l.stride.width) / 2
                - l.padding.width).toNat,
             (((resolveGeometry pre).borderSize.height : Int) * l.stride.height
                + ((l.kernelSize.height : Int) - l.stride.height) / 2
                - l.padding.height).toNat⟩ }) ∧
    (l.layerType = LayerType.OTHER →
      resolveGeometry (pre ++ [l]) = resolveGeometry pre) := by
  rw [resolveGeometry_append_one]
  constructor
  · intro h
    rcases h with h | h <;>
      · unfold geomStep borderAccum
        rw [h]
  · intro h
    exact geomStep_other _ _ h

/-- Witness for C1: a concrete chain consisting of one convolutional layer
(kernel 11, stride 4, padding 0) on top of the input, checked against the
composition rule. -/
theorem geometry_composition_rule_witness :
    resolveGeometry
        [⟨LayerType.CONV, ⟨11, 11⟩, ⟨0, 0⟩, ⟨4, 4⟩⟩] =
      { cellSize := ⟨1 * 4, 1 * 4⟩
        borderSize :=
          ⟨((0 : Int) * 4 + ((11 : Int) - 4) / 2 - 0).toNat,
           ((0 : Int) * 4 + ((11 : Int) - 4) / 2 - 0).toNat⟩ } := by
  have h := (geometry_composition_rule []
      ⟨LayerType.CONV, ⟨11, 11⟩, ⟨0, 0⟩, ⟨4, 4⟩⟩).1 (Or.inl rfl)
  simpa using h

/-- Modelled from the spec (§6, §4.5; `CaffeFeatureExtractor.cpp` is missing):
`cellsToPixels` converts a size in cells back to pixels by scaling with the
resolved cell size and re-adding the symmetric border on both edges. -/
def cellsToPixels (cell border cells : Size) : Size :=
  ⟨cells.width * cell.width + 2 * border.width,
   cells.height * cell.height + 2 * border.height⟩

/-- Modelled from the spec (§4.5 output-dimension formula): `pixelsToCells`
converts a pixel size to cells by trimming the border symmetrically on both
edges and dividing by the resolved cell size (floor division). -/
def pixelsToCells (cell border pixels : Size) : Size :=
  ⟨(pixels.width - 2 * border.width) / cell.width,
   (pixels.height - 2 * border.height) / cell.height⟩

theorem roundtrip_dim (c b p : Nat) (hc : 0 < c) (hb : 2 * b ≤ p) :
    (p - 2 * b) / c * c + 2 * b ≤ p ∧
    p - ((p - 2 * b) / c * c + 2 * b) ≤ c := by
  have h1 : (p - 2 * b) / c * c ≤ p - 2 * b := Nat.div_mul_le_self _ _
  have h3 : (p - 2 * b) % c + c * ((p - 2 * b) / c) = p - 2 * b :=
    Nat.mod_add_div _ _
  have h2 : (p - 2 * b) % c < c := Nat.mod_lt _ hc
  rw [mul_comm c ((p - 2 * b) / c)] at h3
  generalize hq : (p - 2 * b) / c * c = q at h1 h3 ⊢
  generalize hr : (p - 2 * b) % c = r at h2 h3
  omega

/-- C7: For every valid pixel size `p` (both dimensions at least twice the
border, positive cell size), `cellsToPixels (pixelsToCells p)` differs from
`p` by at most one cell in each dimension: the roundtrip never grows the size
and shrinks it by at most `cellSize` pixels per dimension. -/
theorem cellsToPixels_pixelsToCells_roundtrip (cell border p : Size)
    (hcw : 0 < cell.width) (hch : 0 < cell.height)
    (hbw : 2 * border.width ≤ p.width) (hbh : 2 * border.height ≤ p.height) :
    (cellsToPixels cell border (pixelsToCells cell border p)).width ≤ p.width ∧
    p.width - (cellsToPixels cell border (pixelsToCells cell border p)).width
      ≤ cell.width ∧
    (cellsToPixels cell border (pixelsToCells cell border p)).height
      ≤ p.height ∧
    p.height - (cellsToPixels cell border (pixelsToCells cell border p)).height
      ≤ cell.height := by
  unfold cellsToPixels pixelsToCells
  have hw := roundtrip_dim cell.width border.width p.width hcw hbw
  have hh := roundtrip_dim cell.height border.height p.height hch hbh
  exact ⟨hw.1, hw.2, hh.1, hh.2⟩

/-- Witness for C7: cell size (8, 8), border (4, 4), pixel size (103, 57);
the roundtrip reproduces the size up to at most one cell per dimension. -/
theorem cellsToPixels_pixelsToCells_roundtrip_witness :
    (cellsToPixels ⟨8, 8⟩ ⟨4, 4⟩ (pixelsToCells ⟨8, 8⟩ ⟨4, 4⟩ ⟨103, 57⟩)).width
      ≤ 103 ∧
    103 - (cellsToPixels ⟨8, 8⟩ ⟨4, 4⟩
      (pixelsToCells ⟨8, 8⟩ ⟨4, 4⟩ ⟨103, 57⟩)).width ≤ 8 ∧
    (cellsToPixels ⟨8, 8⟩ ⟨4, 4⟩ (pixelsToCells ⟨8, 8⟩ ⟨4, 4⟩ ⟨103, 57⟩)).height
      ≤ 57 ∧
    57 - (cellsToPixels ⟨8, 8⟩ ⟨4, 4⟩
      (pixelsToCells ⟨8, 8⟩ ⟨4, 4⟩ ⟨103, 57⟩)).height ≤ 8 :=
  cellsToPixels_pixelsToCells_roundtrip ⟨8, 8⟩ ⟨4, 4⟩ ⟨103, 57⟩
    (by decide) (by decide) (by decide) (by decide)

/-- The kind of a network layer as seen by layer-name resolution: convolutional,
pooling, fully connected (inner product), or anything else. -/
inductive NetLayerKind where
  | CONV
  | POOL
  | FC
  | OTHER
deriving DecidableEq, Repr, BEq

/-- One layer of the loaded network's layer graph: its name and its kind. -/
structure NetLayer where
  name : String
  kind : NetLayerKind
deriving DecidableEq, Repr

/-- Modelled from the spec (4.3) and the header's `m_lastLayer` comment
("Index of the last convolutional layer in the network before the fully
connected network"): scan the layer chain from the input, stop at the first
fully-connected layer, and remember the index of the last convolutional layer
seen so far. -/
def lastConvScan : List NetLayer → Nat → Option Nat → Option Nat
  | [], _, acc => acc
  | l :: rest, i, acc =>
      if l.kind = NetLayerKind.FC then acc
      else lastConvScan rest (i + 1)
        (if l.kind = NetLayerKind.CONV then some i else acc)

/-- The index of the last convolutional layer preceding the network's first
fully-connected layer, if any. -/
def lastConvBeforeFC (layers : List NetLayer) : Option Nat :=
  lastConvScan layers 0 none

/-- Modelled from the spec (4.3): each comma-separated name in `layerName` is
resolved to the index of the layer of that name, names that match no layer
being dropped. -/
def resolveNames (layers : List NetLayer) (names : List String) : List Nat :=
  names.filterMap (fun nm => layers.findIdx? (fun l => l.name = nm))

/-- Modelled from the spec (4.3, `loadLayerInfo`): the resolved layer indices;
if no requested name resolves, fall back to the last convolutional layer
preceding the first fully-connected layer. -/
def resolveLayerIndices (layers : List NetLayer) (names : List String) :
    List Nat :=
  match resolveNames layers names with
  | [] =>
      match lastConvBeforeFC layers with
      | some i => [i]
      | none => []
  | r => r

/-- C4: Whenever no requested layer name resolves to a layer of the network,
layer resolution falls back to the last convolutional layer preceding the
network's first fully-connected layer; in particular, on the network
`[conv1, pool1, conv2, fc1]` a nonexistent requested name resolves to `conv2`
(index 2). -/
theorem layer_resolution_fallback :
    (∀ (layers : List NetLayer) (names : List String),
      (∀ nm ∈ names, layers.findIdx? (fun l => l.name = nm) = none) →
      resolveLayerIndices layers names =
        match lastConvBeforeFC layers with
        | some i => [i]
        | none => []) ∧
    resolveLayerIndices
        [⟨"conv1", NetLayerKind.CONV⟩, ⟨"pool1", NetLayerKind.POOL⟩,
         ⟨"conv2", NetLayerKind.CONV⟩, ⟨"fc1", NetLayerKind.FC⟩]
        ["nonexistent"] = [2] ∧
    lastConvBeforeFC
        [⟨"conv1", NetLayerKind.CONV⟩, ⟨"pool1", NetLayerKind.POOL⟩,
         ⟨"conv2", NetLayerKind.CONV⟩, ⟨"fc1", NetLayerKind.FC⟩] = some 2 := by
  refine ⟨?_, by decide, by decide⟩
  intro layers names h
  have hr : resolveNames layers names = [] := by
    unfold resolveNames
    exact List.filterMap_eq_nil_iff.mpr h
  unfold resolveLayerIndices
  rw [hr]

/-- Witness for C4: the general fallback statement applied to the concrete
network `[conv1, pool1, conv2, fc1]` with the nonexistent name, yielding
layer index 2 (`conv2`). -/
theorem layer_resolution_fallback_witness :
    resolveLayerIndices
        [⟨"conv1", NetLayerKind.CONV⟩, ⟨"pool1", NetLayerKind.POOL⟩,
         ⟨"conv2", NetLayerKind.CONV⟩, ⟨"fc1", NetLayerKind.FC⟩]
        ["nonexistent"] = [2] := by
  have h := layer_resolution_fallback.1
      [⟨"conv1", NetLayerKind.CONV⟩, ⟨"pool1", NetLayerKind.POOL⟩,
       ⟨"conv2", NetLayerKind.CONV⟩, ⟨"fc1", NetLayerKind.FC⟩]
      ["nonexistent"] (by decide)
  simpa using h

/-- One feature cell: a numeric vector, one entry per channel
(C++ `FeatureCell`, float entries modelled as `ℚ`). -/
abbrev FeatureCell := List ℚ

/-- A row-major matrix of scalars (C++ `ScalarMatrix`). -/
abbrev ScalarMatrix := List (List ℚ)

/-- The error taxonomy of the spec (§7) relevant to these claims. -/
inductive ConfigError where
  | UnknownParameter
  | InvalidValue
  | LoadFailure
deriving DecidableEq, Repr

/-- Clamping a scalar to the interval [-1, 1]. -/
def clamp (x : ℚ) : ℚ := max (-1) (min 1 x)

/-- Modelled from the spec (4.6 ChannelScaler; `CaffeFeatureExtractor.cpp` is
missing): each output channel `i` of a cell is divided by `scales[i]` and
clamped to [-1, 1]. -/
def applyScales (scales c : FeatureCell) : FeatureCell :=
  List.zipWith (fun s v => clamp (v / s)) scales c

/-- Modelled from the spec (4.6, 4.8, `loadScales`): the scales file provides
one maximum per output feature channel; loading fails with `InvalidValue` if
the number of values does not match the resolved output channel count or if
any value is not positive. -/
def loadScales (numOutputChannels : Nat) (vals : List ℚ) :
    Except ConfigError FeatureCell :=
  if vals.length ≠ numOutputChannels then Except.error ConfigError.InvalidValue
  else if vals.any (fun v => decide (v ≤ 0)) then
    Except.error ConfigError.InvalidValue
  else Except.ok vals

/-- Modelled from the spec (4.7 PCAProjector): the projected vector
`ĉ = Aᵗ · (c − m)`, whose entry `j` is `Σ_i A[i][j] · (c[i] − m[i])`;
the output length is the column count of `A` (the length of its rows). -/
def applyPCA (m : FeatureCell) (A : ScalarMatrix) (c : FeatureCell) :
    FeatureCell :=
  (List.range (A.headD []).length).map (fun j =>
    ∑ i ∈ Finset.range A.length,
      (A.getD i []).getD j 0 * (c.getD i 0 - m.getD i 0))

/-- Splits row-major coefficient data into `r` rows of `cols` entries each. -/
def takeRows : Nat → Nat → List ℚ → ScalarMatrix
  | 0, _, _ => []
  | r + 1, cols, data => data.take cols :: takeRows r cols (data.drop cols)

/-- Modelled from the spec (4.8, `loadPCAParams`): the binary PCA file holds
the row and column counts of `A`, then the coefficients of `m` (length =
rows) and of `A` in row-major order.  Loading fails with `InvalidValue` if
the coefficient count does not match `rows + rows × cols` or if `rows` does
not equal the resolved output channel count (the length of the feature
vectors `c` that will be projected). -/
def loadPCAParams (numOutputChannels rows cols : Nat) (data : List ℚ) :
    Except ConfigError (FeatureCell × ScalarMatrix) :=
  if data.length ≠ rows + rows * cols then
    Except.error ConfigError.InvalidValue
  else if rows ≠ numOutputChannels then
    Except.error ConfigError.InvalidValue
  else Except.ok (data.take rows, takeRows rows cols (data.drop rows))

theorem takeRows_length (r cols : Nat) (data : List ℚ) :
    (takeRows r cols data).length = r := by
  induction r generalizing data with
  | zero => rfl
  | succ n ih => simp [takeRows, ih]

theorem takeRows_row_length (r cols : Nat) (data : List ℚ)
    (hd : r * cols ≤ data.length) :
    ∀ row ∈ takeRows r cols data, row.length = cols := by
  induction r generalizing data with
  | zero => intro row h; simp [takeRows] at h
  | succ n ih =>
      intro row h
      simp only [takeRows, List.mem_cons] at h
      rcases h with h | h
      · subst h
        have : cols ≤ data.length := by
          have := Nat.succ_mul n cols ▸ hd
          omega
        simp [List.length_take]
        omega
      · refine ih (data.drop cols) ?_ row h
        simp only [List.length_drop]
        have : (n + 1) * cols = n * cols + cols := Nat.succ_mul n cols
        omega

/-- An input image; only its pixel dimensions matter for the geometry claims
(decoding is an external collaborator, spec §1). -/
structure JPEGImage where
  width : Nat
  height : Nat
deriving DecidableEq, Repr

/-- The state of a `CaffeFeatureExtractor`, mirroring the data members of the
header (lines 192-202).  The method bodies are missing from the sources, so
the fields are modelled from the member declarations and their comments:
`m_scales` and `m_pcaTransform` empty means "not loaded"; the network and the
forward pass are abstracted by `rawFeature`, the per-cell feature vector
harvested from the selected layers of the net (FeatureAssembler, spec 4.5),
before scaling and projection. -/
structure CaffeFeatureExtractor where
  netFile : Option String := none
  weightsFile : Option String := none
  meanFile : Option String := none
  layerName : Option String := none
  scalesFile : Option String := none
  pcaFile : Option String := none
  maxImgSize : Nat := 0
  m_mean : List ℚ := []
  m_scales : FeatureCell := []
  m_pcaMean : FeatureCell := []
  m_pcaTransform : ScalarMatrix := []
  m_lastLayer : Option Nat := none
  m_numChannels : Nat := 0
  m_layerChannels : List Nat := []
  m_layerIndices : List Nat := []
  m_cellSize : List Size := []
  m_borderSize : List Size := []
  rawFeature : Nat → Nat → FeatureCell := fun _ _ => []

/-- The header's `m_numOutputChannels` member is documented as "Sum of the
number of channels of all layers to extract features from"; it is modelled as
that sum over the resolved layers' channel counts. -/
def m_numOutputChannels (e : CaffeFeatureExtractor) : Nat :=
  e.m_layerChannels.sum

/-- Modelled from the spec (§3 LayerSpec, §6): the cell size resolved from the
network structure and reported by `cellSize()`; when several layers are
selected their geometries must be compatible (4.3), so the first resolved
layer's cell size is reported. -/
def cellSize (e : CaffeFeatureExtractor) : Size :=
  e.m_cellSize.headD ⟨1, 1⟩

/-- Modelled from the spec (§3, §6): the border size reported by
`borderSize()`, from the first resolved layer. -/
def borderSize (e : CaffeFeatureExtractor) : Size :=
  e.m_borderSize.headD ⟨0, 0⟩

/-- Modelled from the spec (§6): `maxImageSize()` reports the `maxImgSize`
parameter as the limit on both dimensions (0 = unlimited). -/
def maxImageSize (e : CaffeFeatureExtractor) : Size :=
  ⟨e.maxImgSize, e.maxImgSize⟩

/-- Modelled from the spec (§6, 4.7): `numFeatures()` is the PCA output
dimension (column count of `A`) when a PCATransform is loaded, and the sum of
the resolved layers' channel counts otherwise. -/
def numFeatures (e : CaffeFeatureExtractor) : Nat :=
  if e.m_pcaTransform.isEmpty then m_numOutputChannels e
  else (e.m_pcaTransform.headD []).length

/-- Modelled from the spec (4.6): the ChannelScaler stage inside `extract` —
applied only when a ScaleVector has been loaded, otherwise features pass
through unscaled. -/
def scaleStage (e : CaffeFeatureExtractor) (c : FeatureCell) : FeatureCell :=
  if e.m_scales.isEmpty then c else applyScales e.m_scales c

/-- Modelled from the spec (4.7): the PCAProjector stage inside `extract` —
applied (after scaling) only when a PCATransform has been loaded. -/
def pcaStage (e : CaffeFeatureExtractor) (c : FeatureCell) : FeatureCell :=
  if e.m_pcaTransform.isEmpty then c
  else applyPCA e.m_pcaMean e.m_pcaTransform c

/-- The per-cell processing pipeline of `extract`: raw features from the
selected layers, then scaling, then projection. -/
def processCell (e : CaffeFeatureExtractor) (c : FeatureCell) : FeatureCell :=
  pcaStage e (scaleStage e c)

/-- Modelled from the spec (4.5 FeatureAssembler, §3 FeatureGrid;
`CaffeFeatureExtractor.cpp` is missing): `extract` produces a fresh grid of
feature cells whose dimensions in cells are
`floor((W − 2·borderX)/cellX) × floor((H − 2·borderY)/cellY)`, each cell
being the raw per-cell feature vector passed through scaling and projection.
The grid is a list of rows (y index), each a list of cells (x index). -/
def extract (e : CaffeFeatureExtractor) (img : JPEGImage) :
    List (List FeatureCell) :=
  let cells := pixelsToCells (cellSize e) (borderSize e)
    ⟨img.width, img.height⟩
  (List.range cells.height).map (fun y =>
    (List.range cells.width).map (fun x => processCell e (e.rawFeature x y)))

theorem extract_cell (e : CaffeFeatureExtractor) (img : JPEGImage)
    (x y : Nat)
    (hx : x < (img.width - 2 * (borderSize e).width) / (cellSize e).width)
    (hy : y < (img.height - 2 * (borderSize e).height) / (cellSize e).height) :
    ((extract e img).getD y []).getD x [] = processCell e (e.rawFeature x y) := by
  unfold extract pixelsToCells
  simp [List.getD_eq_getElem?_getD, List.getElem?_map, List.getElem?_range,
    hx, hy]

/-- C2: For every input image processed by `extract` with resolved cell size
`(cellX, cellY)` and border size `(borderX, borderY)`, the output feature
grid has exactly `floor((W − 2·borderX)/cellX)` cells in x and
`floor((H − 2·borderY)/cellY)` cells in y — the border is trimmed
symmetrically on both edges. -/
theorem extract_grid_dimensions (e : CaffeFeatureExtractor) (img : JPEGImage) :
    (extract e img).length =
      (img.height - 2 * (borderSize e).height) / (cellSize e).height ∧
    ∀ row ∈ extract e img,
      row.length =
        (img.width - 2 * (borderSize e).width) / (cellSize e).width := by
  constructor
  · simp [extract, pixelsToCells]
  · intro row h
    simp only [extract, pixelsToCells, List.mem_map, List.mem_range] at h
    obtain ⟨y, _, rfl⟩ := h
    simp

/-- Witness for C2: cell size (8, 8), border (16, 16) and a 100×50 image give
a grid of (100 − 32)/8 = 8 cells in x and (50 − 32)/8 = 2 cells in y. -/
theorem extract_grid_dimensions_witness :
    (extract { m_cellSize := [⟨8, 8⟩], m_borderSize := [⟨16, 16⟩] }
        ⟨100, 50⟩).length = 2 ∧
    ((extract { m_cellSize := [⟨8, 8⟩], m_borderSize := [⟨16, 16⟩] }
        ⟨100, 50⟩).getD 0 []).length = 8 := by
  have h := extract_grid_dimensions
    { m_cellSize := [⟨8, 8⟩], m_borderSize := [⟨16, 16⟩] } ⟨100, 50⟩
  refine ⟨h.1.trans (by norm_num [borderSize, cellSize]), ?_⟩
  have hmem : (extract { m_cellSize := [⟨8, 8⟩], m_borderSize := [⟨16, 16⟩] }
      ⟨100, 50⟩).getD 0 [] ∈
      extract { m_cellSize := [⟨8, 8⟩], m_borderSize := [⟨16, 16⟩] }
        ⟨100, 50⟩ := by decide
  exact (h.2 _ hmem).trans (by norm_num [borderSize, cellSize])

/-- C8: `numFeatures()` equals the sum of the channel counts of all resolved
LayerSpecs; when a PCATransform is loaded, it instead equals the PCA output
dimension, the column count of `A` (as guaranteed for any successfully loaded
transform). -/
theorem numFeatures_channels_or_pca (e : CaffeFeatureExtractor) :
    (e.m_pcaTransform = [] → numFeatures e = e.m_layerChannels.sum) ∧
    (e.m_pcaTransform ≠ [] →
      numFeatures e = (e.m_pcaTransform.headD []).length) ∧
    (∀ (n rows cols : Nat) (data : List ℚ) (m : FeatureCell)
        (A : ScalarMatrix), 0 < rows →
      loadPCAParams n rows cols data = Except.ok (m, A) →
      e.m_pcaTransform = A → numFeatures e = cols) := by
  refine ⟨fun h => by simp [numFeatures, m_numOutputChannels, h],
    fun h => by simp [numFeatures, List.isEmpty_iff, h], ?_⟩
  intro n rows cols data m A hrows hload hA
  unfold loadPCAParams at hload
  split_ifs at hload with h1 h2
  injection hload with h
  injection h with hm hA2
  subst hm
  subst hA2
  have hAlen : (takeRows rows cols (data.drop rows)).length = rows :=
    takeRows_length _ _ _
  have hne : takeRows rows cols (data.drop rows) ≠ [] := by
    intro hcon
    rw [hcon] at hAlen
    simp at hAlen
    omega
  have hhead : (takeRows rows cols (data.drop rows)).headD [] ∈
      takeRows rows cols (data.drop rows) := by
    cases hxs : takeRows rows cols (data.drop rows) with
    | nil => exact absurd hxs hne
    | cons a as => simp
  have hcols : ((takeRows rows cols (data.drop rows)).headD []).length = cols := by
    refine takeRows_row_length rows cols (data.drop rows) ?_ _ hhead
    simp only [List.length_drop]
    omega
  rw [numFeatures, hA, if_neg]
  · exact hcols
  · simp only [List.isEmpty_iff]
    exact hne

/-- Witness for C8: an extractor with no PCA loaded and resolved layer channel
counts [256, 128] reports 384 features; one holding the 2-column transform
loaded from a concrete PCA file reports 2 features. -/
theorem numFeatures_channels_or_pca_witness :
    numFeatures { m_layerChannels := [256, 128] } = 384 ∧
    numFeatures { m_pcaTransform := [[1, 0], [0, 1]] } = 2 := by
  constructor
  · exact ((numFeatures_channels_or_pca
      { m_layerChannels := [256, 128] }).1 rfl).trans (by norm_num)
  · exact (numFeatures_channels_or_pca
      { m_pcaTransform := [[1, 0], [0, 1]] }).2.2 2 2 2
      [1, 1, 1, 0, 0, 1] [1, 1] [[1, 0], [0, 1]]
      (by norm_num) rfl rfl

theorem headD_mem {α : Type} (l : List α) (d : α) (h : l ≠ []) :
    l.headD d ∈ l := by
  cases l with
  | nil => exact absurd rfl h
  | cons a as => simp

theorem applyScales_getD (s c : FeatureCell) (i : Nat)
    (hs : i < s.length) (hc : i < c.length) :
    (applyScales s c).getD i 0 = clamp (c.getD i 0 / s.getD i 0) := by
  induction s generalizing c i with
  | nil => simp at hs
  | cons a as ih =>
      cases c with
      | nil => simp at hc
      | cons b bs =>
          cases i with
          | zero => rfl
          | succ n =>
              simp only [applyScales, List.zipWith_cons_cons,
                List.getD_cons_succ]
              exact ih bs n (by simpa using hs) (by simpa using hc)

/-- C5: If a ScaleVector is loaded, every extracted cell's channel `i` equals
the raw value divided by `scale[i]` and clamped to [-1, 1] (stated both for
the ChannelScaler stage itself and for the full `extract` output when no PCA
follows); loading the scales fails with `InvalidValue` if any value is not
positive; and with no ScaleVector loaded the scaling stage passes every
feature vector through unscaled. -/
theorem channel_scaling_clamps :
    (∀ (s c : FeatureCell) (i : Nat), i < s.length → i < c.length →
      (applyScales s c).getD i 0 = clamp (c.getD i 0 / s.getD i 0)) ∧
    (∀ (e : CaffeFeatureExtractor) (img : JPEGImage) (x y i : Nat),
      x < (img.width - 2 * (borderSize e).width) / (cellSize e).width →
      y < (img.height - 2 * (borderSize e).height) / (cellSize e).height →
      e.m_pcaTransform = [] → e.m_scales ≠ [] →
      i < e.m_scales.length → i < (e.rawFeature x y).length →
      (((extract e img).getD y []).getD x []).getD i 0 =
        clamp ((e.rawFeature x y).getD i 0 / e.m_scales.getD i 0)) ∧
    (∀ (n : Nat) (vals : List ℚ), (∃ v ∈ vals, v ≤ 0) →
      loadScales n vals = Except.error ConfigError.InvalidValue) ∧
    (∀ (e : CaffeFeatureExtractor) (c : FeatureCell), e.m_scales = [] →
      scaleStage e c = c) := by
  refine ⟨fun s c i hs hc => applyScales_getD s c i hs hc, ?_, ?_, ?_⟩
  · intro e img x y i hx hy hpca hsc hi hraw
    rw [extract_cell e img x y hx hy]
    unfold processCell pcaStage scaleStage
    rw [if_pos (by simp [hpca]), if_neg (by simp [List.isEmpty_iff, hsc])]
    exact applyScales_getD _ _ i hi hraw
  · intro n vals h
    obtain ⟨v, hv, hvle⟩ := h
    unfold loadScales
    split_ifs with h1 h2
    · rfl
    · rfl
    · exfalso
      simp only [List.any_eq_true, decide_eq_true_eq, not_exists, not_and] at h2
      exact absurd hvle (h2 v hv)
  · intro e c h
    simp [scaleStage, h]

/-- Witness for C5: one cell with raw value 1 and scale 2; the extracted
channel equals `clamp (1 / 2)`. -/
theorem channel_scaling_clamps_witness :
    (((extract
        { m_scales := [2], m_cellSize := [⟨1, 1⟩], m_borderSize := [⟨0, 0⟩],
          rawFeature := fun _ _ => [1] } ⟨1, 1⟩).getD 0 []).getD 0 []).getD 0 0
      = clamp ((1 : ℚ) / 2) := by
  have h := channel_scaling_clamps.2.1
    { m_scales := [2], m_cellSize := [⟨1, 1⟩], m_borderSize := [⟨0, 0⟩],
      rawFeature := fun _ _ => [1] } ⟨1, 1⟩ 0 0 0
    (by decide) (by decide) rfl (by decide) (by decide) (by decide)
  simpa using h

/-- C6: If a PCATransform `(m, A)` is loaded, each post-scaling feature vector
`c` is replaced by `Aᵗ · (c − m)`; the output length equals the column count
of `A`; a successful load guarantees the dimensions agree (`len(m)` = row
count = resolved channel count, every row of `A` has `cols` entries), and any
size mismatch is an `InvalidValue` error raised by the loader — extraction
itself (a total function) never raises it per cell.  The example `m = [1,1]`,
`A = [[1,0],[0,1]]`, `c = [2,3]` projects to `[1,2]`. -/
theorem pca_projection :
    (∀ (m : FeatureCell) (A : ScalarMatrix) (c : FeatureCell),
      (applyPCA m A c).length = (A.headD []).length) ∧
    (∀ (m : FeatureCell) (A : ScalarMatrix) (c : FeatureCell) (cols : Nat),
      A ≠ [] → (∀ row ∈ A, row.length = cols) →
      (applyPCA m A c).length = cols) ∧
    (∀ (n rows cols : Nat) (data : List ℚ) (m : FeatureCell)
        (A : ScalarMatrix),
      loadPCAParams n rows cols data = Except.ok (m, A) →
      m.length = rows ∧ A.length = rows ∧
        (∀ row ∈ A, row.length = cols) ∧ rows = n) ∧
    (∀ (n rows cols : Nat) (data : List ℚ),
      data.length ≠ rows + rows * cols ∨ rows ≠ n →
      loadPCAParams n rows cols data =
        Except.error ConfigError.InvalidValue) ∧
    applyPCA [1, 1] [[1, 0], [0, 1]] [2, 3] = [1, 2] := by
  refine ⟨fun m A c => by simp [applyPCA], ?_, ?_, ?_, by
    simp [applyPCA, Finset.sum_range_succ, List.range_succ]
    norm_num⟩
  · intro m A c cols hne hrows
    rw [(by simp [applyPCA] :
      (applyPCA m A c).length = (A.headD []).length)]
    exact hrows _ (headD_mem A [] hne)
  · intro n rows cols data m A hload
    unfold loadPCAParams at hload
    split_ifs at hload with h1 h2
    injection hload with h
    injection h with hm hA2
    subst hm
    subst hA2
    refine ⟨?_, takeRows_length _ _ _, ?_, by omega⟩
    · simp only [List.length_take]
      omega
    · refine takeRows_row_length rows cols (data.drop rows) ?_
      simp only [List.length_drop]
      omega
  · intro n rows cols data h
    unfold loadPCAParams
    split_ifs with h1 h2
    · rfl
    · rfl
    · exact absurd h (by simp [h1, h2])

/-- Witness for C6: for the loaded transform `A = [[1,0],[0,1]]` (2 rows of
2 entries) the projected vector of `c = [2,3]` has length 2, the column count
of `A`. -/
theorem pca_projection_witness :
    (applyPCA [1, 1] [[1, 0], [0, 1]] [2, 3]).length = 2 :=
  pca_projection.2.1 [1, 1] [[1, 0], [0, 1]] [2, 3] 2 (by decide) (by decide)

/-- Modelled from the spec (4.1) and the header (lines 176-187 and the
parameter documentation, lines 16-37): `setParam` for string parameters.
Unrecognized names are an `UnknownParameter` error; `scalesFile` and
`pcaFile` must not be set before `layerName` (their loaders depend on the
resolved per-layer channel count), which is an `InvalidValue` error.  The
actual file parsing (4.8) and network (re)acquisition are external effects
abstracted here: on success the path is recorded.  An error returns no
updated extractor (C++ exception semantics), so a failed call leaves the
extractor's state untouched. -/
def setParam (e : CaffeFeatureExtractor) (name val : String) :
    Except ConfigError CaffeFeatureExtractor :=
  if name = "netFile" then Except.ok { e with netFile := some val }
  else if name = "weightsFile" then Except.ok { e with weightsFile := some val }
  else if name = "meanFile" then Except.ok { e with meanFile := some val }
  else if name = "layerName" then Except.ok { e with layerName := some val }
  else if name = "scalesFile" then
    if e.layerName = none then Except.error ConfigError.InvalidValue
    else Except.ok { e with scalesFile := some val }
  else if name = "pcaFile" then
    if e.layerName = none then Except.error ConfigError.InvalidValue
    else Except.ok { e with pcaFile := some val }
  else Except.error ConfigError.UnknownParameter

/-- C9: Setting `scalesFile` or `pcaFile` before `layerName` has been set
fails with an `InvalidValue` error, and the parameter does not take effect:
no updated extractor is ever produced by such a call. -/
theorem setParam_requires_layerName (e : CaffeFeatureExtractor) (v : String)
    (h : e.layerName = none) :
    setParam e "scalesFile" v = Except.error ConfigError.InvalidValue ∧
    setParam e "pcaFile" v = Except.error ConfigError.InvalidValue ∧
    (∀ e' : CaffeFeatureExtractor, setParam e "scalesFile" v ≠ Except.ok e') ∧
    (∀ e' : CaffeFeatureExtractor, setParam e "pcaFile" v ≠ Except.ok e') := by
  refine ⟨by simp [setParam, h], by simp [setParam, h], ?_, ?_⟩ <;>
    · intro e' hcon
      simp [setParam, h] at hcon

/-- Witness for C9: a freshly constructed extractor (no `layerName` yet)
rejects `scalesFile` with `InvalidValue`. -/
theorem setParam_requires_layerName_witness :
    setParam {} "scalesFile" "scales.txt" =
      Except.error ConfigError.InvalidValue :=
  (setParam_requires_layerName {} "scales.txt" rfl).1

/-- Modelled from the spec (§4.5, §5) and the header (line 161): `extract` is
a `const` member that "must be thread-safe"; the call computes the output
feature grid and leaves the extractor unchanged.  The returned pair models
(state after the call, output written to the caller's matrix). -/
def extractCall (e : CaffeFeatureExtractor) (img : JPEGImage) :
    CaffeFeatureExtractor × List (List FeatureCell) :=
  (e, extract e img)

/-- C10: `extract` never mutates the extractor's observable configuration:
after the call, `numFeatures()`, `cellSize()`, `borderSize()`,
`maxImageSize()`, the loaded mean, scales and PCA transform, and all set
parameters are identical to their values before; only the caller-supplied
output is produced. -/
theorem extract_preserves_configuration (e : CaffeFeatureExtractor)
    (img : JPEGImage) :
    numFeatures (extractCall e img).1 = numFeatures e ∧
    cellSize (extractCall e img).1 = cellSize e ∧
    borderSize (extractCall e img).1 = borderSize e ∧
    maxImageSize (extractCall e img).1 = maxImageSize e ∧
    (extractCall e img).1.m_mean = e.m_mean ∧
    (extractCall e img).1.m_scales = e.m_scales ∧
    (extractCall e img).1.m_pcaMean = e.m_pcaMean ∧
    (extractCall e img).1.m_pcaTransform = e.m_pcaTransform ∧
    (extractCall e img).1.netFile = e.netFile ∧
    (extractCall e img).1.weightsFile = e.weightsFile ∧
    (extractCall e img).1.meanFile = e.meanFile ∧
    (extractCall e img).1.layerName = e.layerName ∧
    (extractCall e img).1.scalesFile = e.scalesFile ∧
    (extractCall e img).1.pcaFile = e.pcaFile ∧
    (extractCall e img).1.maxImgSize = e.maxImgSize ∧
    (extractCall e img).2 = extract e img :=
  ⟨rfl, rfl, rfl, rfl, rfl, rfl, rfl, rfl, rfl, rfl, rfl, rfl, rfl, rfl,
    rfl, rfl⟩

/-- The key of the network pool: the pair of the protobuf (structure) filename
and the weights filename (header line 283). -/
structure NetKey where
  structureFile : String
  weightsFile : String
deriving DecidableEq, Repr

/-- A live entry of the network pool: its key, the identity of the underlying
loaded network (`handle`), and the number of owning references
(`shared_ptr` owners). -/
structure PoolEntry where
  key : NetKey
  handle : Nat
  owners : Nat
deriving DecidableEq, Repr

/-- Modelled from the spec (4.2 NetworkRegistry) and the header's `netPool`
member (a `map` from file pairs to `weak_ptr`s): the registry state.  Only
live networks are kept (an expired weak reference counts as an absent entry);
`nextHandle` names the identity the next load will create, and `loadCount` is
the load-count probe of the spec (§8). -/
structure NetPool where
  entries : List PoolEntry
  nextHandle : Nat
  loadCount : Nat
deriving DecidableEq, Repr

/-- The initial, empty pool. -/
def emptyPool : NetPool := ⟨[], 0, 0⟩

/-- Adds one owning reference to the first live entry with the given key,
returning the updated entries and the shared handle, or `none` when no live
entry exists for the key. -/
def bumpFirst : List PoolEntry → NetKey → Option (List PoolEntry × Nat)
  | [], _ => none
  | en :: rest, k =>
      if en.key = k then
        some ({ en with owners := en.owners + 1 } :: rest, en.handle)
      else
        match bumpFirst rest k with
        | some (rest2, h) => some (en :: rest2, h)
        | none => none

/-- Modelled from the spec (4.2): `acquire` returns a new owning reference to
the live network of the key when one exists (shared state, no duplicate
load); otherwise it loads the network freshly (incrementing the load-count
probe) and registers it before returning ownership. -/
def acquire (p : NetPool) (k : NetKey) : NetPool × Nat :=
  match bumpFirst p.entries k with
  | some (es, h) => ({ p with entries := es }, h)
  | none =>
      ({ entries := { key := k, handle := p.nextHandle, owners := 1 } ::
           p.entries,
         nextHandle := p.nextHandle + 1,
         loadCount := p.loadCount + 1 },
       p.nextHandle)

/-- Modelled from the spec (§3 NetworkHandle, 4.2): releasing an owning
reference decrements the owner count of the network with that handle; once no
owner remains the entry is evicted, making a later acquire reload the
network. -/
def release (p : NetPool) (h : Nat) : NetPool :=
  { p with entries :=
      (p.entries.map (fun en =>
        if en.handle = h then { en with owners := en.owners - 1 } else en)
      ).filter (fun en => en.owners ≠ 0) }

/-- The invariant of the spec (§3): at most one live network per key. -/
def onePerKey (p : NetPool) : Prop :=
  (p.entries.map PoolEntry.key).Nodup

theorem bumpFirst_keys (k : NetKey) :
    ∀ (l l2 : List PoolEntry) (h : Nat), bumpFirst l k = some (l2, h) →
      l2.map PoolEntry.key = l.map PoolEntry.key := by
  intro l
  induction l with
  | nil => intro l2 h hb; simp [bumpFirst] at hb
  | cons en rest ih =>
      intro l2 h hb
      simp only [bumpFirst] at hb
      split_ifs at hb with hk
      · injection hb with hpair
        have h1 := congrArg Prod.fst hpair
        simp only at h1
        subst h1
        simp
      · cases hbr : bumpFirst rest k with
        | none => rw [hbr] at hb; simp at hb
        | some pr =>
            obtain ⟨rest2, h2⟩ := pr
            rw [hbr] at hb
            simp only at hb
            injection hb with hpair
            have h1 := congrArg Prod.fst hpair
            simp only at h1
            subst h1
            simp [ih rest2 h2 hbr]

theorem bumpFirst_again (k : NetKey) :
    ∀ (l l2 : List PoolEntry) (h : Nat), bumpFirst l k = some (l2, h) →
      ∃ l3, bumpFirst l2 k = some (l3, h) := by
  intro l
  induction l with
  | nil => intro l2 h hb; simp [bumpFirst] at hb
  | cons en rest ih =>
      intro l2 h hb
      simp only [bumpFirst] at hb
      split_ifs at hb with hk
      · injection hb with hpair
        have h1 := congrArg Prod.fst hpair
        have h2 := congrArg Prod.snd hpair
        simp only at h1 h2
        subst h1
        subst h2
        refine ⟨{ en with owners := en.owners + 1 + 1 } :: rest, ?_⟩
        simp only [bumpFirst]
        rw [if_pos hk]
      · cases hbr : bumpFirst rest k with
        | none => rw [hbr] at hb; simp at hb
        | some pr =>
            obtain ⟨rest2, h2⟩ := pr
            rw [hbr] at hb
            simp only at hb
            injection hb with hpair
            have h1 := congrArg Prod.fst hpair
            have h3 := congrArg Prod.snd hpair
            simp only at h1 h3
            subst h1
            subst h3
            obtain ⟨l3, h4⟩ := ih rest2 h2 hbr
            refine ⟨en :: l3, ?_⟩
            simp only [bumpFirst]
            rw [if_neg hk, h4]

theorem bumpFirst_eq_none (k : NetKey) :
    ∀ l : List PoolEntry, bumpFirst l k = none ↔ ∀ en ∈ l, en.key ≠ k := by
  intro l
  induction l with
  | nil => simp [bumpFirst]
  | cons en rest ih =>
      simp only [bumpFirst, List.mem_cons]
      split_ifs with hk
      · simp [hk]
      · cases hbr : bumpFirst rest k with
        | none =>
            simp only
            constructor
            · intro _ en2 h2
              rcases h2 with h2 | h2
              · subst h2; exact hk
              · exact (ih.mp hbr) en2 h2
            · intro _; trivial
        | some pr =>
            obtain ⟨rest2, h2⟩ := pr
            simp only
            constructor
            · intro hcon; simp at hcon
            · intro hall
              have : bumpFirst rest k = none :=
                ih.mpr (fun en2 h2 => hall en2 (Or.inr h2))
              rw [this] at hbr
              simp at hbr

/-- C3: Acquiring the same (structureFile, weightsFile) key twice while the
first handle is alive yields two references to the same single underlying
network and performs no duplicate load; whenever no live entry exists for a
key (in particular after all owners released it), an acquire performs a fresh
load; the invariant "at most one live network per key" holds of the empty
pool and is preserved by every acquire and release; and in the concrete
two-acquire/two-release scenario the pool ends empty and a third acquire
reloads, returning a new handle. -/
theorem netPool_single_live_network :
    (∀ (p : NetPool) (k : NetKey),
      (acquire (acquire p k).1 k).2 = (acquire p k).2 ∧
      (acquire (acquire p k).1 k).1.loadCount = (acquire p k).1.loadCount) ∧
    (∀ (p : NetPool) (k : NetKey), (∀ en ∈ p.entries, en.key ≠ k) →
      (acquire p k).1.loadCount = p.loadCount + 1 ∧
      (acquire p k).2 = p.nextHandle) ∧
    (∀ (p : NetPool) (k : NetKey), onePerKey p → onePerKey (acquire p k).1) ∧
    (∀ (p : NetPool) (h : Nat), onePerKey p → onePerKey (release p h)) ∧
    onePerKey emptyPool ∧
    ((release (release
        (acquire (acquire emptyPool ⟨"n", "w"⟩).1 ⟨"n", "w"⟩).1
        (acquire emptyPool ⟨"n", "w"⟩).2)
        (acquire emptyPool ⟨"n", "w"⟩).2).entries = [] ∧
      (acquire (release (release
        (acquire (acquire emptyPool ⟨"n", "w"⟩).1 ⟨"n", "w"⟩).1
        (acquire emptyPool ⟨"n", "w"⟩).2)
        (acquire emptyPool ⟨"n", "w"⟩).2) ⟨"n", "w"⟩).1.loadCount = 2 ∧
      (acquire (release (release
        (acquire (acquire emptyPool ⟨"n", "w"⟩).1 ⟨"n", "w"⟩).1
        (acquire emptyPool ⟨"n", "w"⟩).2)
        (acquire emptyPool ⟨"n", "w"⟩).2) ⟨"n", "w"⟩).2 ≠
        (acquire emptyPool ⟨"n", "w"⟩).2) := by
  refine ⟨?_, ?_, ?_, ?_, by simp [onePerKey, emptyPool], by decide⟩
  · intro p k
    cases hb : bumpFirst p.entries k with
    | some pr =>
        obtain ⟨es, h⟩ := pr
        obtain ⟨l3, h3⟩ := bumpFirst_again k p.entries es h hb
        simp [acquire, hb, h3]
    | none =>
        simp [acquire, hb, bumpFirst]
  · intro p k hall
    have hb : bumpFirst p.entries k = none :=
      (bumpFirst_eq_none k p.entries).mpr hall
    simp [acquire, hb]
  · intro p k hp
    unfold onePerKey at hp ⊢
    cases hb : bumpFirst p.entries k with
    | some pr =>
        obtain ⟨es, h⟩ := pr
        simp only [acquire, hb]
        rw [bumpFirst_keys k p.entries es h hb]
        exact hp
    | none =>
        simp only [acquire, hb, List.map_cons, List.nodup_cons]
        refine ⟨?_, hp⟩
        have hall := (bumpFirst_eq_none k p.entries).mp hb
        intro hmem
        rw [List.mem_map] at hmem
        obtain ⟨en, hen, hkey⟩ := hmem
        exact hall en hen hkey
  · intro p h hp
    unfold onePerKey at hp ⊢
    simp only [release]
    apply List.Nodup.sublist ((List.filter_sublist _).map PoolEntry.key)
    rw [List.map_map]
    have hkeys : p.entries.map (PoolEntry.key ∘ (fun en =>
        if en.handle = h then { en with owners := en.owners - 1 }
        else en)) = p.entries.map PoolEntry.key := by
      apply List.map_congr_left
      intro en _
      by_cases hh : en.handle = h <;> simp [hh]
    rw [hkeys]
    exact hp

/-- Witness for C3: on the empty pool (no live entry for any key), acquiring
the key ("n", "w") performs a fresh load and hands out the next handle. -/
theorem netPool_single_live_network_witness :
    (acquire emptyPool ⟨"n", "w"⟩).1.loadCount = emptyPool.loadCount + 1 ∧
    (acquire emptyPool ⟨"n", "w"⟩).2 = emptyPool.nextHandle :=
  netPool_single_live_network.2.1 emptyPool ⟨"n", "w"⟩
    (by simp [emptyPool])

end ARTOS
